import Mathlib

/-!
Verification development for the glob pattern-matching engine in
`rupypy/utils/glob.py`.

The Python source is shallowly embedded here:
* the filesystem primitives (`os.path.exists`, `os.path.isdir`, `os.listdir`)
  become an abstract record of total functions (`FS`), with `os.listdir`
  returning `Except Unit` to model the recoverable `OSError`;
* the matcher-node classes become the inductive type `Node`; the mutable
  `separator` attribute becomes an `Option String` field, and the
  `copy.copy(self.next); switched.set_separator(...)` idiom is modelled by an
  extra separator-override argument to `call` (the copy is only ever used for
  one immediate call, so overriding the top node's separator is the same);
* the shared mutable match list in `Environment` becomes an explicit
  accumulator threaded through `call`;
* Python exceptions (`OSError`, `TypeError`, `IndexError`, `AssertionError`,
  `NameError`, `raise "invalid usage"`) become the `Err` type; the
  `except OSError` handlers catch exactly `Err.osError`;
* the unbounded `while` loop over the recursive-descent worklist gets a fuel
  parameter (`Err.fuelOut` marks exhaustion of this meta-resource); everything
  else is structural recursion so that all definitions compute by `rfl`/`decide`.
-/

namespace GlobSpec

/-- Python-level failure modes of the glob code.  `osError` is the only one the
source ever catches; `fuelOut` is a meta-level marker for exhausting the fuel
of the worklist loop (the loop in the source is unbounded). -/
inductive Err where
  | osError
  | typeError
  | indexError
  | assertionError
  | nameError
  | invalidUsage
  | fuelOut
deriving DecidableEq, Repr

/-- Abstract filesystem, the external collaborators of the glob core:
`listdir` models `os.listdir` (its error case models `OSError`),
`isdir` models `os.path.isdir`, `pathExists` models `os.path.exists`. -/
structure FS where
  listdir : String → Except Unit (List String)
  isdir : String → Bool
  pathExists : String → Bool

/-- `FNM_NOESCAPE` flag bit from the source. -/
def FNM_NOESCAPE : Nat := 1

/-- `FNM_DOTMATCH` flag bit from the source. -/
def FNM_DOTMATCH : Nat := 4

/-- `self.flags & FNM_DOTMATCH != 0` (`Node.allow_dots`). -/
def allowDots (flags : Nat) : Bool := flags &&& FNM_DOTMATCH != 0

/-- The character `{` (written via its code point to keep braces out of
string literals). -/
def lbraceChar : Char := Char.ofNat 123

/-- The character `}`. -/
def rbraceChar : Char := Char.ofNat 125

/-- `ent[0] == "."` on a Python string (used for hidden-entry checks). -/
def startsWithDot (s : String) : Bool :=
  match s.data with
  | '.' :: _ => true
  | [] => false
  | _ :: _ => false

/-- Successful search of the anchored regex `^[^\*\?\]]+` against a segment:
it succeeds iff the segment is nonempty and its first character is none of
`*`, `?`, `]`.  This is the "constant directory" test of `single_compile`. -/
def isConstDirStart (s : String) : Bool :=
  match s.data with
  | [] => false
  | c :: _ => !(c = '*' || c = '?' || c = ']')

/-- Successful search of `^[a-zA-Z0-9._]+$` against the final segment:
nonempty and made only of ASCII letters, digits, `.` and `_`. -/
def isConstantFile (s : String) : Bool :=
  !s.data.isEmpty && s.data.all (fun c => c.isAlphanum || c = '.' || c = '_')

/-! ## `fnmatch.fnmatch`

`Match.ismatch` delegates single-segment matching to Python's
`fnmatch.fnmatch(string, glob)`.  On POSIX `os.path.normcase` is the identity,
and `fnmatch.translate` turns `*` into `.*`, `?` into `.`, and `[...]` into a
regex character class (`[!...]` negated; an unterminated `[` is a literal; a
`]` directly after `[` or `[!` is part of the class), matching the whole
string.  The matcher below implements exactly that semantics by backtracking;
note that it deliberately has no special case for a leading `.`. -/

/-- Parse a bracket class: given the characters after `[`, return
`(negated, body, rest)`; `none` means there is no closing `]`, in which case
`[` is a literal. -/
def parseClass (ps : List Char) : Option (Bool × List Char × List Char) :=
  let neg := match ps with
    | '!' :: _ => true
    | _ => false
  let ps1 := match ps with
    | '!' :: t => t
    | _ => ps
  match ps1 with
  | ']' :: t =>
    match t.dropWhile (· ≠ ']') with
    | [] => none
    | _ :: rest => some (neg, ']' :: t.takeWhile (· ≠ ']'), rest)
  | _ =>
    match ps1.dropWhile (· ≠ ']') with
    | [] => none
    | _ :: rest => some (neg, ps1.takeWhile (· ≠ ']'), rest)

/-- Does character `c` match the (unnegated) body of a bracket class?
`a-b` denotes a range, as in the regex `fnmatch.translate` produces. -/
def classMatch : List Char → Char → Bool
  | [], _ => false
  | a :: '-' :: b :: rest, c => (a ≤ c && c ≤ b) || classMatch rest c
  | a :: rest, c => (a == c) || classMatch rest c

/-- Fuelled worker for `fnmatch`: every step shortens the pattern or the
string, so fuel `|pattern| + |string| + 1` always suffices. -/
def fnmatchGo : Nat → List Char → List Char → Bool
  | 0, _, _ => false
  | fuel + 1, pat, s =>
    match pat, s with
    | [], [] => true
    | [], _ :: _ => false
    | '*' :: ps, s =>
      fnmatchGo fuel ps s ||
        (match s with
         | [] => false
         | _ :: s' => fnmatchGo fuel ('*' :: ps) s')
    | '?' :: ps, _ :: s' => fnmatchGo fuel ps s'
    | '?' :: _, [] => false
    | '[' :: ps, c :: s' =>
      (match parseClass ps with
       | none => c = '[' && fnmatchGo fuel ps s'
       | some (neg, body, rest) =>
         (if neg then !classMatch body c else classMatch body c) &&
           fnmatchGo fuel rest s')
    | '[' :: _, [] => false
    | p :: ps, c :: s' => p == c && fnmatchGo fuel ps s'
    | _ :: _, [] => false

/-- `fnmatch.fnmatch(name, pat)` (POSIX semantics). -/
def fnmatch (name pat : String) : Bool :=
  fnmatchGo (pat.data.length + name.data.length + 1) pat.data name.data

/-! ## Matcher nodes -/

/-- The matcher-node classes of the source.  `sep` is the `separator`
attribute (`None` initially, set by `set_separator`).  Leaf kinds
(`constantEntry`, `entryMatch`, `directoriesOnly`) are built with
`nxt = None` in the source and so carry no continuation here. -/
inductive Node where
  | constantDirectory (next : Node) (flags : Nat) (sep : Option String) (dir : String)
  | constantEntry (flags : Nat) (sep : Option String) (name : String) (suffixes : List String)
  | rootDirectory (next : Node) (flags : Nat) (sep : Option String)
  | recursiveDirectories (next : Node) (flags : Nat) (sep : Option String)
  | startRecursiveDirectories (next : Node) (flags : Nat) (sep : Option String)
  | directoryMatch (next : Node) (flags : Nat) (sep : Option String) (glob : String)
  | entryMatch (flags : Nat) (sep : Option String) (glob : String) (suffixes : List String)
  | directoriesOnly (flags : Nat) (sep : Option String)
deriving DecidableEq, Repr

/-- `Node.set_separator(value)`. -/
def Node.set_separator : Node → Option String → Node
  | .constantDirectory next flags _ dir, v => .constantDirectory next flags v dir
  | .constantEntry flags _ name sfx, v => .constantEntry flags v name sfx
  | .rootDirectory next flags _, v => .rootDirectory next flags v
  | .recursiveDirectories next flags _, v => .recursiveDirectories next flags v
  | .startRecursiveDirectories next flags _, v => .startRecursiveDirectories next flags v
  | .directoryMatch next flags _ glob, v => .directoryMatch next flags v glob
  | .entryMatch flags _ glob sfx, v => .entryMatch flags v glob sfx
  | .directoriesOnly flags _, v => .directoriesOnly flags v

/-- `Node.get_separator`: `self.separator or "/"` (Python `or`, so an empty
string also falls back to `"/"`). -/
def get_separator : Option String → String
  | some s => if s = "" then "/" else s
  | none => "/"

/-- `Node.path_join(parent, ent)`; the `parent = ""` case also covers the
Python `None` current path (both are falsy and treated identically by the
source). -/
def path_join (sep : Option String) (parent ent : String) : String :=
  if parent = "" then ent
  else if parent = "/" then "/" ++ ent
  else parent ++ get_separator sep ++ ent

/-- `DirectoryMatch.__init__`: stores the glob, then evaluates
`self.glob.replace("**", "*")` and discards the result, so the stored
pattern stays exactly the argument. -/
def DirectoryMatch_init (nxt : Node) (flags : Nat) (glob : String) : Node :=
  let _discarded := glob.replace "**" "*"
  .directoryMatch nxt flags none glob

/-- `ConstantEntry.__init__` invokes `Glob.ConstantEntry.__init__(self, nxt,
flags, name)`: it recursively calls itself with the `suffixes` argument
missing, which raises `TypeError` before any instance can be produced. -/
def ConstantEntry_init (_nxt : Option Node) (_flags : Nat) (_name : String)
    (_suffixes : List String) : Except Err Node :=
  .error .typeError

/-- Stored single-segment pattern of a `Match` node, if any. -/
def Node.matchPattern : Node → Option String
  | .directoryMatch _ _ _ g => some g
  | .entryMatch _ _ g _ => some g
  | _ => none

/-- `Match.ismatch(string)` = `fnmatch.fnmatch(string, self.glob)` for the two
`Match` subclasses (false for other node kinds, which never call it). -/
def Node.ismatch : Node → String → Bool
  | .directoryMatch _ _ _ g, s => fnmatch s g
  | .entryMatch _ _ g _, s => fnmatch s g
  | _, _ => false

/-! ## `path_split`

The source splits on the regex `/+`: for each run of slashes it appends the
preceding segment (possibly empty) and the run itself; after the last run it
appends the remaining tail (the whole string when there was no run at all).
Finally it pops trailing empty tokens with `while len(ret[-1]) == 0:
ret.pop()`, guarded only once by `if ret:` — so a string whose tokens are all
empty (only the empty pattern produces that) indexes an empty list and raises
`IndexError`. -/

/-- Tokenizer state machine producing the alternating segment/separator-run
list exactly as the regex loop does.  `inSep` says whether the current token
is a slash run; `curr` holds the current token's characters reversed. -/
def tokGo : Bool → List Char → List Char → List String
  | inSep, curr, [] =>
    if inSep then [⟨curr.reverse⟩, ""] else [⟨curr.reverse⟩]
  | false, curr, c :: cs =>
    if c = '/' then (⟨curr.reverse⟩ : String) :: tokGo true [c] cs
    else tokGo false (c :: curr) cs
  | true, curr, c :: cs =>
    if c = '/' then tokGo true (c :: curr) cs
    else (⟨curr.reverse⟩ : String) :: tokGo false [c] cs

/-- The trailing `while len(ret[-1]) == 0: ret.pop()` loop, acting on the
reversed token list; popping past the front indexes an empty list
(`IndexError`). -/
def popTrailingEmpties : List String → Except Err (List String)
  | [] => .error .indexError
  | x :: rest => if x = "" then popTrailingEmpties rest else .ok (x :: rest)

/-- `Glob.path_split`. -/
def path_split (s : String) : Except Err (List String) :=
  let ret := tokGo false [] s.data
  match ret with
  | [] => .ok []
  | _ :: _ =>
    match popTrailingEmpties ret.reverse with
    | .error e => .error e
    | .ok revKept => .ok revKept.reverse

/-! ## `single_compile`

`parts.pop()` removes from the end of the Python list, so the chain builder
below works on the reversed token list (`rp.head` is Python's `parts[-1]`,
and `parts[len(parts) - 2]` is the second element of `rp`). -/

/-- The literal-prefix folding loop.  `dir` has already passed the
constant-directory test; the source then computes `partidx = len(parts) - 2`
and `assert partidx >= 0` — failing the assertion when fewer than two tokens
remain — before testing `parts[partidx]` and, while it is also constant,
absorbing separator and segment into `dir`. -/
def absorb : String → List String → Except Err (String × List String)
  | _, [] => .error .assertionError
  | _, [_] => .error .assertionError
  | dir, s2 :: sect :: rest =>
    if isConstDirStart sect then absorb (sect ++ s2 ++ dir) rest
    else .ok (dir, s2 :: sect :: rest)

/-- The `while parts:` loop of `single_compile`, on the reversed token list.
Each iteration pops a separator (installed on the current head node with
`set_separator`) and a directory segment, then wraps the chain in the node the
segment calls for.  The fuel is `rp.length`, which a caller supplies; each
iteration consumes at least two tokens, so that always suffices. -/
def buildChain (flags : Nat) : Nat → List String → Node → Except Err Node
  | _, [], last => .ok last
  | 0, _ :: _, _ => .error .fuelOut
  | fuel + 1, sep :: rp, last =>
    match rp with
    | [] => .error .indexError
    | dir :: rp' =>
      let last' := last.set_separator (some sep)
      if dir = "**" then
        match rp' with
        | _ :: _ => buildChain flags fuel rp' (.recursiveDirectories last' flags none)
        | [] => buildChain flags fuel [] (.startRecursiveDirectories last' flags none)
      else if isConstDirStart dir then
        match absorb dir rp' with
        | .error e => .error e
        | .ok (dir', rp'') =>
          buildChain flags fuel rp'' (.constantDirectory last' flags none dir')
      else if dir.length > 0 then
        buildChain flags fuel rp' (DirectoryMatch_init last' flags dir)
      else
        buildChain flags fuel rp' last'

/-- `Glob.single_compile(glob, flags, suffixes)`. -/
def single_compile (glob : String) (flags : Nat) (suffixes : Option (List String)) :
    Except Err Node :=
  match path_split glob with
  | .error e => .error e
  | .ok parts =>
    let lastNode : Except Err (Node × List String) :=
      if glob.data.getLast? = some '/' then
        .ok (.directoriesOnly flags none, parts.reverse)
      else
        match parts.reverse with
        | [] => .error .indexError
        | file :: rp =>
          let sfx := suffixes.getD [""]
          if isConstantFile file then
            match ConstantEntry_init none flags file sfx with
            | .error e => .error e
            | .ok n => .ok (n, rp)
          else
            .ok (.entryMatch flags none file sfx, rp)
    match lastNode with
    | .error e => .error e
    | .ok (last, rp) =>
      match buildChain flags rp.length rp last with
      | .error e => .error e
      | .ok chain =>
        if glob.data.head? = some '/' then .ok (.rootDirectory chain flags none)
        else .ok chain

/-! ## The execution engine

`call` interprets a chain.  Result type: the final match list (the
`env.matches` list is mutated in place in Python, so appends made before an
exception are still visible) together with the exception, if one escaped.

The worklist loops take the continuation (`self.next.call`) as a function
argument so that each loop is a standalone structural recursion; `call` itself
is structural on the node.  The Python stack appends/pops at the end of the
list; here the head of the list is the top of the stack, so a batch of pushes
`[c1, …, ck]` prepends `ck :: … :: c1`. -/

/-- Outcome of one node invocation: final match list and escaped exception. -/
abbrev GRes := List String × Option Err

/-- The `for ent in os.listdir(path)` body inside
`RecursiveDirectories.call_with_stack`: each qualifying entry is appended to
the stack and then walked with `self.next.call`.  Returns the list of pushes
made (in push order), the match list, and the first escaped exception; the
pushes made before an exception are kept, and the remaining entries are
skipped, exactly as in Python. -/
def entLoopTrace (fs : FS) (nextCall : List String → String → GRes) (flags : Nat)
    (sep : Option String) (path : String) :
    List String → List String → List String × List String × Option Err
  | [], acc => ([], acc, none)
  | ent :: rest, acc =>
    let full := path_join sep path ent
    if fs.isdir full = true ∧ (allowDots flags = true ∨ startsWithDot ent = false) then
      match nextCall acc full with
      | (m, some e) => ([full], m, some e)
      | (m, none) =>
        match entLoopTrace fs nextCall flags sep path rest m with
        | (ps, m', e) => (full :: ps, m', e)
    else entLoopTrace fs nextCall flags sep path rest acc

/-- The `while stack:` loop of `call_with_stack`.  The whole body of the
`for` loop (including the recursive `self.next.call`) sits inside
`try: … except OSError`, so an `osError` from the listing or from a child walk
abandons that directory's remaining entries and continues with the stack;
other exceptions escape.  The third component of the result is the trace of
every path ever pushed onto the worklist (seeded by the caller). -/
def stackLoopTrace (fs : FS) (nextCall : List String → String → GRes) (flags : Nat)
    (sep : Option String) :
    Nat → List String → List String → List String →
      List String × Option Err × List String
  | _, [], acc, tr => (acc, none, tr)
  | 0, _ :: _, acc, tr => (acc, some .fuelOut, tr)
  | fuel + 1, p :: rest, acc, tr =>
    match fs.listdir p with
    | .error _ => stackLoopTrace fs nextCall flags sep fuel rest acc tr
    | .ok ents =>
      match entLoopTrace fs nextCall flags sep p ents acc with
      | (ps, m, some e) =>
        if e = .osError then
          stackLoopTrace fs nextCall flags sep fuel (ps.reverse ++ rest) m (tr ++ ps)
        else (m, some e, tr ++ ps)
      | (ps, m, none) =>
        stackLoopTrace fs nextCall flags sep fuel (ps.reverse ++ rest) m (tr ++ ps)

/-- The seeding loop of `StartRecursiveDirectories.call`: walks the entries of
`"."`, pushing each qualifying directory and invoking the continuation on it.
No `try` here — any exception escapes at once. -/
def startLoopTrace (fs : FS) (nextCall : List String → String → GRes) (flags : Nat) :
    List String → List String → List String × List String × Option Err
  | [], acc => ([], acc, none)
  | ent :: rest, acc =>
    if fs.isdir ent = true ∧ (allowDots flags = true ∨ startsWithDot ent = false) then
      match nextCall acc ent with
      | (m, some e) => ([ent], m, some e)
      | (m, none) =>
        match startLoopTrace fs nextCall flags rest m with
        | (ps, m', e) => (ent :: ps, m', e)
    else startLoopTrace fs nextCall flags rest acc

/-- The `for ent in os.listdir(...)` loop of `DirectoryMatch.call`: every
entry that matches the glob and is a directory is walked with `self.next`.
No `try` — exceptions escape. -/
def dirMatchLoop (fs : FS) (nextCall : List String → String → GRes)
    (sep : Option String) (g : String) (path : String) :
    List String → List String → GRes
  | [], acc => (acc, none)
  | ent :: rest, acc =>
    if fnmatch ent g then
      let full := path_join sep path ent
      if fs.isdir full then
        match nextCall acc full with
        | (m, some e) => (m, some e)
        | (m, none) => dirMatchLoop fs nextCall sep g path rest m
      else dirMatchLoop fs nextCall sep g path rest acc
    else dirMatchLoop fs nextCall sep g path rest acc

/-- Effective separator of a node invocation: `some s` overrides the stored
field (this models `switched = copy.copy(self.next); switched.set_separator(…);
switched.call(…)` — the copy exists only for that one call). -/
def sepOf : Option (Option String) → Option String → Option String
  | some s, _ => s
  | none, s => s

/-- `node.call(env, path)`.  `fuel` bounds only the iterations of each
recursive-descent worklist loop; every other recursion is structural.
`path = ""` doubles for Python's `None` starting path (the source treats both
identically, as falsy). -/
def call (fs : FS) (fuel : Nat) : Node → Option (Option String) → List String → String → GRes
  | .constantDirectory next _flags sep dir, ov, acc, path =>
    call fs fuel next none acc (path_join (sepOf ov sep) path dir)
  | .constantEntry _flags sep name sfx, ov, acc, path =>
    let stem := path_join (sepOf ov sep) path name
    (acc ++ sfx.filterMap (fun suf =>
      if fs.pathExists (stem ++ suf) then some (stem ++ suf) else none), none)
  | .rootDirectory next _flags _sep, _ov, acc, _path =>
    call fs fuel next none acc "/"
  | .recursiveDirectories next _flags sep, ov, acc, path =>
    let s := sepOf ov sep
    if fs.pathExists path = false then (acc, none)
    else
      match call fs fuel next (some s) acc path with
      | (m, some e) => (m, some e)
      | (m, none) =>
        match stackLoopTrace fs (fun a p => call fs fuel next none a p)
            _flags s fuel [path] m [path] with
        | (m', e, _tr) => (m', e)
  | .startRecursiveDirectories next _flags sep, ov, acc, path =>
    let s := sepOf ov sep
    if path ≠ "" then (acc, some .invalidUsage)
    else
      match fs.listdir "." with
      | .error _ => (acc, some .osError)
      | .ok ents =>
        match startLoopTrace fs (fun a p => call fs fuel next none a p) _flags ents acc with
        | (_, m, some e) => (m, some e)
        | (ps, m, none) =>
          match call fs fuel next (some s) m "" with
          | (m2, some e) => (m2, some e)
          | (m2, none) =>
            match stackLoopTrace fs (fun a p => call fs fuel next none a p)
                _flags s fuel ps.reverse m2 ps with
            | (m3, e, _tr) => (m3, e)
  | .directoryMatch next _flags sep g, ov, acc, path =>
    if path ≠ "" ∧ fs.pathExists path = false then (acc, none)
    else
      match fs.listdir (if path = "" then "." else path) with
      | .error _ => (acc, some .osError)
      | .ok ents =>
        dirMatchLoop fs (fun a p => call fs fuel next none a p) (sepOf ov sep) g path ents acc
  | .entryMatch _flags sep g sfx, ov, acc, path =>
    if path ≠ "" ∧ fs.pathExists (path ++ "/.") = false then (acc, none)
    else
      match fs.listdir (if path = "" then "." else path) with
      | .error _ => (acc, none)
      | .ok ents =>
        (acc ++ ents.flatMap (fun f => sfx.filterMap (fun suf =>
          if fnmatch (f ++ suf) g then some (path_join (sepOf ov sep) path (f ++ suf))
          else none)), none)
  | .directoriesOnly _flags _sep, _ov, acc, path =>
    if path ≠ "" ∧ fs.pathExists (path ++ "/.") = true then (acc ++ [path ++ "/"], none)
    else (acc, none)

/-- `Glob.run(node, matches)`: walk a chain starting from the `None` path. -/
def run (fs : FS) (fuel : Nat) (node : Node) (ms : List String) : GRes :=
  call fs fuel node none ms ""

/-! ## `Glob.compile` — brace expansion

The first scan starts at the first `{` and walks forward keeping a nesting
counter; every `{` updates `lbrace`, and the scan stops at the `}` that brings
the counter to zero.  When escaping is enabled and a backslash is met during
that scan the source executes `escapes = true` — a reference to the undefined
name `true` (Python's literal is `True`), raising `NameError`.

The alternative-splitting loop then cuts the brace body at characters equal to
`"?"` at nesting depth zero (the source compares `pattern[pos] == "?"`), with
a backslash skipping the following character when escaping is enabled. -/

/-- Index of the first `{`, `pattern.find("{")`. -/
def findLbrace : List Char → Nat → Option Nat
  | [], _ => none
  | c :: cs, i => if c = lbraceChar then some i else findLbrace cs (i + 1)

/-- The matching-brace scan, starting at the first `{` (so `cs` is the suffix
of the pattern from that position and `i` its absolute index).  Returns
`(lbrace, rbrace)` as far as they were assigned, or `NameError` on an
unescaped backslash. -/
def braceScan (escape : Bool) :
    List Char → Nat → Int → Option Nat → Except Err (Option Nat × Option Nat)
  | [], _, _, lb => .ok (lb, none)
  | c :: cs, i, nest, lb =>
    let lb' := if c = lbraceChar then some i else lb
    let nest' := if c = lbraceChar then nest + 1
      else if c = rbraceChar then nest - 1 else nest
    if nest' = 0 then .ok (lb', some i)
    else if c = '\\' ∧ escape then .error .nameError
    else braceScan escape cs (i + 1) nest' lb'

/-- The alternative-splitting loop over the brace body (characters strictly
between `lbrace` and `rbrace`).  `cur` is the current alternative reversed. -/
def splitAltGo (escape : Bool) : List Char → Int → List Char → List (List Char)
  | [], _, cur => [cur.reverse]
  | c :: rest, nest, cur =>
    if c = '?' ∧ nest = 0 then cur.reverse :: splitAltGo escape rest 0 []
    else
      let nest' := if c = lbraceChar then nest + 1
        else if c = rbraceChar then nest - 1 else nest
      if c = '\\' ∧ escape then
        match rest with
        | [] => [(c :: cur).reverse]
        | d :: rest' => splitAltGo escape rest' nest' (d :: c :: cur)
      else splitAltGo escape rest nest' (c :: cur)

/-- `Glob.compile(pattern, flags, patterns)`.  The recursion on each
substituted alternative is fuelled; each alternative is at least two
characters shorter than its source, so `pattern.length` fuel suffices. -/
def compile : Nat → String → Nat → List Node → Except Err (List Node)
  | 0, _, _, _ => .error .fuelOut
  | fuel + 1, pattern, flags, patterns =>
    let escape := flags &&& FNM_NOESCAPE = 0
    let cs := pattern.data
    let scanned : Except Err (Option Nat × Option Nat) :=
      match findLbrace cs 0 with
      | none => .ok (none, none)
      | some i => braceScan escape (cs.drop i) i 0 none
    match scanned with
    | .error e => .error e
    | .ok (some lbrace, some rbrace) =>
      let front := cs.take lbrace
      let back := cs.drop (rbrace + 1)
      let body := (cs.drop (lbrace + 1)).take (rbrace - (lbrace + 1))
      let alts := splitAltGo escape body 0 []
      alts.foldlM (fun acc alt => compile fuel ⟨front ++ alt ++ back⟩ flags acc) patterns
    | .ok (_, _) =>
      match single_compile pattern flags none with
      | .error e => .error e
      | .ok node => .ok (patterns ++ [node])

/-- The `for node in patterns: self.run(node, matches)` loop of `glob`. -/
def runAll (fs : FS) (fuel : Nat) : List Node → List String → Except Err (List String)
  | [], ms => .ok ms
  | n :: ns, ms =>
    match call fs fuel n none ms "" with
    | (_, some e) => .error e
    | (m, none) => runAll fs fuel ns m

/-- `Glob.glob(pattern, flags, matches)` with a fresh `matches` list supplied
explicitly.  The result distinguishes the two Python returns: the brace branch
of the source has no `return` statement and yields `None` (modelled
`.ok none`), while the brace-free branch returns the match list
(`.ok (some ms)`); any escaped exception is `.error`. -/
def glob (fs : FS) (fuel : Nat) (pattern : String) (flags : Nat)
    (ms : List String) : Except Err (Option (List String)) :=
  if pattern.data.contains lbraceChar then
    match compile fuel pattern flags [] with
    | .error e => .error e
    | .ok pats =>
      match runAll fs fuel pats ms with
      | .error e => .error e
      | .ok _ => .ok none
  else
    match single_compile pattern flags none with
    | .error e => .error e
    | .ok node =>
      match run fs fuel node ms with
      | (_, some e) => .error e
      | (m, none) => .ok (some m)

deriving instance DecidableEq for Except

/-! ## Auxiliary notions used by the theorems -/

/-- The qualifying child directories a worklist iteration can push when
popping `p`: entries of `p` that name directories and pass the hidden-entry
check, as full joined paths (empty when the listing fails). -/
def childDirs (fs : FS) (flags : Nat) (sep : Option String) (p : String) : List String :=
  match fs.listdir p with
  | .error _ => []
  | .ok ents =>
    ents.filterMap (fun ent =>
      if fs.isdir (path_join sep p ent) = true ∧
          (allowDots flags = true ∨ startsWithDot ent = false) then
        some (path_join sep p ent)
      else none)

/-- Chains containing no recursive-descent node; their walk never touches the
fuel of any worklist loop. -/
def recursionFree : Node → Bool
  | .recursiveDirectories _ _ _ => false
  | .startRecursiveDirectories _ _ _ => false
  | .constantDirectory next _ _ _ => recursionFree next
  | .rootDirectory next _ _ => recursionFree next
  | .directoryMatch next _ _ _ => recursionFree next
  | .constantEntry _ _ _ _ => true
  | .entryMatch _ _ _ _ => true
  | .directoriesOnly _ _ => true

/-! ## Concrete filesystems for the evaluation theorems -/

/-- Working directory containing exactly `ab,cd`. -/
def fsBrace : FS :=
  { listdir := fun p => if p = "." then .ok ["ab,cd"] else .error ()
    isdir := fun _ => false
    pathExists := fun _ => false }

/-- Working directory containing `.hidden` and `visible` (in that listing
order). -/
def fsDots : FS :=
  { listdir := fun p => if p = "." then .ok [".hidden", "visible"] else .error ()
    isdir := fun _ => false
    pathExists := fun _ => false }

/-- A filesystem on which every directory listing fails. -/
def fsFail : FS :=
  { listdir := fun _ => .error ()
    isdir := fun _ => false
    pathExists := fun p => p = "p" || p = "p/." }

/-- A small directory tree: `r` contains subdirectories `a`, `b` and the
hidden subdirectory `.h`. -/
def fsTree : FS :=
  { listdir := fun p =>
      if p = "r" then .ok ["a", "b", ".h"]
      else if p = "r/a" then .ok []
      else if p = "r/b" then .ok []
      else .error ()
    isdir := fun p => p = "r" || p = "r/a" || p = "r/b" || p = "r/.h"
    pathExists := fun p => p = "r" || p = "r/a" || p = "r/b" }

/-! ## Claim theorems -/

/-- Claim C1.  The brace branch of `glob` has no `return` statement: for a
pattern containing `\x7b...\x7d` the call returns Python `None` (here
`.ok none`), not the match list — even though running the compiled chain on
the same filesystem does produce the match `ab,cd` into the shared list.  This
refutes "the public glob operation returns the ordered sequence of matching
path strings … including when the pattern contains brace alternation". -/
theorem glob_brace_returns_none :
    glob fsBrace 10 "a\x7bb,c\x7dd" 0 [] = .ok none ∧
    runAll fsBrace 10 [.entryMatch 0 none "ab,cd" [""]] [] = .ok ["ab,cd"] :=
  ⟨rfl, rfl⟩

/-- Claim C2.  The alternative-splitting loop cuts the brace body at `"?"`,
not at `","`: `a\x7bb,c\x7dd` compiles to the single pattern `ab,cd` (one
`EntryMatch` chain), not to the two patterns `abd`, `acd` the claim states. -/
theorem compile_brace_splits_on_question_mark :
    compile 10 "a\x7bb,c\x7dd" 0 [] = .ok [.entryMatch 0 none "ab,cd" [""]] :=
  rfl

/-- Claim C3.  The empty pattern is a hard failure, not an empty match list:
`path_split("")` produces the single empty token, and the trailing-empty
popping loop then indexes an empty list, raising `IndexError` out of `glob`
on every filesystem. -/
theorem glob_empty_pattern_raises :
    ∀ (fs : FS) (fuel : Nat), glob fs fuel "" 0 [] = .error .indexError :=
  fun _ _ => rfl

/-- Claim C4.  Compiling `a/b/c.txt` never reaches the folding comparison: the
`ConstantEntry` constructor raises `TypeError` first (on every filesystem), so
neither folded nor unfolded match output exists.  Moreover the folding loop
itself is broken: when the literal run reaches the front of a relative
pattern, `assert partidx >= 0` fails, as `a/b/*` shows. -/
theorem glob_folding_example_raises :
    (∀ (fs : FS) (fuel : Nat), glob fs fuel "a/b/c.txt" 0 [] = .error .typeError) ∧
    single_compile "a/b/*" 0 none = .error .assertionError :=
  ⟨fun _ _ => rfl, rfl⟩

/-- Claim C5.  A metacharacter-free, separator-free pattern crashes instead of
being looked up: `ConstantEntry.__init__` recursively invokes itself without
the `suffixes` argument, raising `TypeError` out of `glob("abc")` on every
filesystem. -/
theorem glob_constant_entry_raises :
    ∀ (fs : FS) (fuel : Nat), glob fs fuel "abc" 0 [] = .error .typeError :=
  fun _ _ => rfl

/-- Claim C6, counterexample.  With entries `.hidden` and `visible`,
`glob("*")` (no dot-match flag) returns both names, not only `visible`:
`Match.ismatch` delegates to `fnmatch.fnmatch`, which gives `*` no
leading-dot protection. -/
theorem glob_star_matches_hidden_counterexample :
    glob fsDots 10 "*" 0 [] = .ok (some [".hidden", "visible"]) ∧
    glob fsDots 10 "*" 0 [] ≠ .ok (some ["visible"]) :=
  ⟨rfl, by decide⟩

/-- Claim C6, amended.  Entry matching ignores the dot-match flag entirely:
`glob("*")` returns `.hidden` and `visible` both without and with
`FNM_DOTMATCH` (the flag only affects recursive descent). -/
theorem glob_star_ignores_dotmatch :
    glob fsDots 10 "*" 0 [] = .ok (some [".hidden", "visible"]) ∧
    glob fsDots 10 "*" FNM_DOTMATCH [] = .ok (some [".hidden", "visible"]) :=
  ⟨rfl, rfl⟩

/-- Claim C7, counterexample.  A directory-listing failure is not always
caught at the node that issued it: `DirectoryMatch.call` lists without a
`try`, so on a filesystem where listing the working directory fails,
`glob("*/x*")` raises `OSError` instead of returning an empty list. -/
theorem glob_listing_failure_propagates :
    glob fsFail 10 "*/x*" 0 [] = .error .osError :=
  rfl

/-- Claim C7, amended.  Listing failures are caught locally (zero matches for
the branch) by `EntryMatch.call` and by the recursive-descent worklist loop,
but `DirectoryMatch.call` propagates them. -/
theorem listing_failure_recovery (fs : FS) (fuel flags : Nat) (sep : Option String)
    (next : Node) (g : String) (sfx : List String) (acc : List String) (path : String)
    (hfail : fs.listdir path = .error ())
    (hne : path ≠ "")
    (hdot : fs.pathExists (path ++ "/.") = true)
    (hex : fs.pathExists path = true) :
    call fs fuel (.entryMatch flags sep g sfx) none acc path = (acc, none) ∧
    call fs fuel (.directoryMatch next flags sep g) none acc path = (acc, some .osError) ∧
    (∀ (nc : List String → String → GRes) (rest tr : List String),
      stackLoopTrace fs nc flags sep (fuel + 1) (path :: rest) acc tr =
        stackLoopTrace fs nc flags sep fuel rest acc tr) := by
  refine ⟨?_, ?_, ?_⟩
  · simp [call, hne, hdot, hfail]
  · simp [call, hne, hex, hfail]
  · intro nc rest tr
    simp [stackLoopTrace, hfail]

/-- Witness for `listing_failure_recovery` at a concrete filesystem and
path. -/
theorem listing_failure_recovery_witness :
    fsFail.listdir "p" = .error () ∧
    (call fsFail 3 (.entryMatch 0 none "*" [""]) none [] "p" = ([], none) ∧
     call fsFail 3 (.directoryMatch (.directoriesOnly 0 none) 0 none "*") none [] "p" =
       ([], some .osError) ∧
     (∀ (nc : List String → String → GRes) (rest tr : List String),
       stackLoopTrace fsFail nc 0 none 4 ("p" :: rest) [] tr =
         stackLoopTrace fsFail nc 0 none 3 rest [] tr)) :=
  ⟨rfl, listing_failure_recovery fsFail 3 0 none (.directoriesOnly 0 none) "*" [""] [] "p"
    rfl (by decide) rfl rfl⟩

/-- Claim C10.  `DirectoryMatch.__init__` discards the result of
`self.glob.replace("**", "*")`: the stored pattern equals the argument
exactly, and name matching therefore tests the original segment text. -/
theorem directoryMatch_keeps_pattern :
    ∀ (nxt : Node) (flags : Nat) (g : String),
      (DirectoryMatch_init nxt flags g).matchPattern = some g ∧
      ∀ s, (DirectoryMatch_init nxt flags g).ismatch s = fnmatch s g :=
  fun _ _ _ => ⟨rfl, fun _ => rfl⟩

/-! ## The match accumulator is append-only (C8) -/

section AppendOnly

variable {fs : FS} {nc : List String → String → GRes}

/-- Appending deltas composes. -/
private theorem append_chain {acc m r : List String} {t₁ t₂ : List String}
    (h₁ : m = acc ++ t₁) (h₂ : r = m ++ t₂) : r = acc ++ (t₁ ++ t₂) := by
  rw [h₂, h₁, List.append_assoc]

theorem dirMatchLoop_append (sep : Option String) (g path : String)
    (h : ∀ a p, ∃ t, (nc a p).1 = a ++ t) :
    ∀ (ents acc : List String), ∃ t, (dirMatchLoop fs nc sep g path ents acc).1 = acc ++ t := by
  intro ents
  induction ents with
  | nil => exact fun acc => ⟨[], (List.append_nil acc).symm⟩
  | cons ent rest ih =>
    intro acc
    by_cases hm : fnmatch ent g = true
    · by_cases hd : fs.isdir (path_join sep path ent) = true
      · obtain ⟨t₁, ht₁⟩ := h acc (path_join sep path ent)
        cases hnc : nc acc (path_join sep path ent) with
        | mk m oe =>
          rw [hnc] at ht₁
          cases oe with
          | some e => exact ⟨t₁, by simp [dirMatchLoop, hm, hd, hnc]; exact ht₁⟩
          | none =>
            obtain ⟨t₂, ht₂⟩ := ih m
            exact ⟨t₁ ++ t₂, by simp [dirMatchLoop, hm, hd, hnc]; exact append_chain ht₁ ht₂⟩
      · obtain ⟨t, ht⟩ := ih acc
        exact ⟨t, by simp [dirMatchLoop, hm, hd]; exact ht⟩
    · obtain ⟨t, ht⟩ := ih acc
      exact ⟨t, by simp [dirMatchLoop, hm]; exact ht⟩

theorem entLoopTrace_append (flags : Nat) (sep : Option String) (path : String)
    (h : ∀ a p, ∃ t, (nc a p).1 = a ++ t) :
    ∀ (ents acc : List String),
      ∃ t, (entLoopTrace fs nc flags sep path ents acc).2.1 = acc ++ t := by
  intro ents
  induction ents with
  | nil => exact fun acc => ⟨[], (List.append_nil acc).symm⟩
  | cons ent rest ih =>
    intro acc
    by_cases hc : fs.isdir (path_join sep path ent) = true ∧
        (allowDots flags = true ∨ startsWithDot ent = false)
    · obtain ⟨t₁, ht₁⟩ := h acc (path_join sep path ent)
      cases hnc : nc acc (path_join sep path ent) with
      | mk m oe =>
        rw [hnc] at ht₁
        cases oe with
        | some e => exact ⟨t₁, by simp [entLoopTrace, hc, hnc]; exact ht₁⟩
        | none =>
          obtain ⟨t₂, ht₂⟩ := ih m
          cases hrec : entLoopTrace fs nc flags sep path rest m with
          | mk ps rest' =>
            rw [hrec] at ht₂
            exact ⟨t₁ ++ t₂, by
              simp [entLoopTrace, hc, hnc, hrec]
              exact append_chain ht₁ ht₂⟩
    · obtain ⟨t, ht⟩ := ih acc
      exact ⟨t, by simp [entLoopTrace, hc]; exact ht⟩

theorem startLoopTrace_append (flags : Nat)
    (h : ∀ a p, ∃ t, (nc a p).1 = a ++ t) :
    ∀ (ents acc : List String),
      ∃ t, (startLoopTrace fs nc flags ents acc).2.1 = acc ++ t := by
  intro ents
  induction ents with
  | nil => exact fun acc => ⟨[], (List.append_nil acc).symm⟩
  | cons ent rest ih =>
    intro acc
    by_cases hc : fs.isdir ent = true ∧
        (allowDots flags = true ∨ startsWithDot ent = false)
    · obtain ⟨t₁, ht₁⟩ := h acc ent
      cases hnc : nc acc ent with
      | mk m oe =>
        rw [hnc] at ht₁
        cases oe with
        | some e => exact ⟨t₁, by simp [startLoopTrace, hc, hnc]; exact ht₁⟩
        | none =>
          obtain ⟨t₂, ht₂⟩ := ih m
          cases hrec : startLoopTrace fs nc flags rest m with
          | mk ps rest' =>
            rw [hrec] at ht₂
            exact ⟨t₁ ++ t₂, by
              simp [startLoopTrace, hc, hnc, hrec]
              exact append_chain ht₁ ht₂⟩
    · obtain ⟨t, ht⟩ := ih acc
      exact ⟨t, by simp [startLoopTrace, hc]; exact ht⟩

theorem stackLoopTrace_append (flags : Nat) (sep : Option String)
    (h : ∀ a p, ∃ t, (nc a p).1 = a ++ t) :
    ∀ (fuel : Nat) (stack acc tr : List String),
      ∃ t, (stackLoopTrace fs nc flags sep fuel stack acc tr).1 = acc ++ t := by
  intro fuel
  induction fuel with
  | zero =>
    intro stack acc tr
    cases stack with
    | nil => exact ⟨[], (List.append_nil acc).symm⟩
    | cons p rest => exact ⟨[], (List.append_nil acc).symm⟩
  | succ f ih =>
    intro stack acc tr
    cases stack with
    | nil => exact ⟨[], (List.append_nil acc).symm⟩
    | cons p rest =>
      cases hls : fs.listdir p with
      | error u =>
        obtain ⟨t, ht⟩ := ih rest acc tr
        exact ⟨t, by simp [stackLoopTrace, hls]; exact ht⟩
      | ok ents =>
        obtain ⟨t₁, ht₁⟩ := entLoopTrace_append flags sep p h ents acc
        cases hel : entLoopTrace fs nc flags sep p ents acc with
        | mk ps rest' =>
          cases rest' with
          | mk m oe =>
            rw [hel] at ht₁
            cases oe with
            | some e =>
              by_cases hos : e = Err.osError
              · subst hos
                obtain ⟨t₂, ht₂⟩ := ih (ps.reverse ++ rest) m (tr ++ ps)
                exact ⟨t₁ ++ t₂, by
                  simp [stackLoopTrace, hls, hel]
                  exact append_chain ht₁ ht₂⟩
              · exact ⟨t₁, by simp [stackLoopTrace, hls, hel, hos]; exact ht₁⟩
            | none =>
              obtain ⟨t₂, ht₂⟩ := ih (ps.reverse ++ rest) m (tr ++ ps)
              exact ⟨t₁ ++ t₂, by
                simp [stackLoopTrace, hls, hel]
                exact append_chain ht₁ ht₂⟩

/-- Claim C8.  Every node invocation treats the match list as an append-only
accumulator: whatever `call` returns equals the incoming list followed by the
newly discovered matches, for every node kind, separator override, path and
fuel — entries already present are never dropped or reordered. -/
theorem call_matches_append_only (fs : FS) (fuel : Nat) (n : Node) :
    ∀ (ov : Option (Option String)) (acc : List String) (path : String),
      ∃ t, (call fs fuel n ov acc path).1 = acc ++ t := by
  induction n with
  | constantDirectory next flags sep dir ih =>
    intro ov acc path
    exact ih none acc (path_join (sepOf ov sep) path dir)
  | constantEntry flags sep name sfx =>
    intro ov acc path
    exact ⟨_, rfl⟩
  | rootDirectory next flags sep ih =>
    intro ov acc path
    exact ih none acc "/"
  | recursiveDirectories next flags sep ih =>
    intro ov acc path
    by_cases hex : fs.pathExists path = false
    · exact ⟨[], by simp [call, hex]⟩
    · obtain ⟨t₁, ht₁⟩ := ih (some (sepOf ov sep)) acc path
      cases hc1 : call fs fuel next (some (sepOf ov sep)) acc path with
      | mk m oe =>
        rw [hc1] at ht₁
        cases oe with
        | some e => exact ⟨t₁, by simp [call, hex, hc1]; exact ht₁⟩
        | none =>
          obtain ⟨t₂, ht₂⟩ := stackLoopTrace_append flags (sepOf ov sep)
            (fun a p => ih none a p) fuel [path] m [path]
          cases hsl : stackLoopTrace fs (fun a p => call fs fuel next none a p)
              flags (sepOf ov sep) fuel [path] m [path] with
          | mk m' rest' =>
            rw [hsl] at ht₂
            exact ⟨t₁ ++ t₂, by
              simp [call, hex, hc1, hsl]
              exact append_chain ht₁ ht₂⟩
  | startRecursiveDirectories next flags sep ih =>
    intro ov acc path
    by_cases hne : path ≠ ""
    · exact ⟨[], by simp [call, hne]⟩
    · cases hls : fs.listdir "." with
      | error u => exact ⟨[], by simp [call, hne, hls]⟩
      | ok ents =>
        obtain ⟨t₁, ht₁⟩ := startLoopTrace_append flags (fun a p => ih none a p) ents acc
        cases hsl : startLoopTrace fs (fun a p => call fs fuel next none a p)
            flags ents acc with
        | mk ps rest' =>
          cases rest' with
          | mk m oe =>
            rw [hsl] at ht₁
            cases oe with
            | some e => exact ⟨t₁, by simp [call, hne, hls, hsl]; exact ht₁⟩
            | none =>
              obtain ⟨t₂, ht₂⟩ := ih (some (sepOf ov sep)) m ""
              cases hc2 : call fs fuel next (some (sepOf ov sep)) m "" with
              | mk m₂ oe₂ =>
                rw [hc2] at ht₂
                cases oe₂ with
                | some e => exact ⟨t₁ ++ t₂, by
                    simp [call, hne, hls, hsl, hc2]
                    exact append_chain ht₁ ht₂⟩
                | none =>
                  obtain ⟨t₃, ht₃⟩ := stackLoopTrace_append flags (sepOf ov sep)
                    (fun a p => ih none a p) fuel ps.reverse m₂ ps
                  cases hsl2 : stackLoopTrace fs (fun a p => call fs fuel next none a p)
                      flags (sepOf ov sep) fuel ps.reverse m₂ ps with
                  | mk m₃ rest₃ =>
                    rw [hsl2] at ht₃
                    exact ⟨t₁ ++ (t₂ ++ t₃), by
                      simp [call, hne, hls, hsl, hc2, hsl2]
                      exact append_chain ht₁ (append_chain ht₂ ht₃)⟩
  | directoryMatch next flags sep g ih =>
    intro ov acc path
    by_cases hg : path ≠ "" ∧ fs.pathExists path = false
    · exact ⟨[], by simp [call, hg]⟩
    · cases hls : fs.listdir (if path = "" then "." else path) with
      | error u => exact ⟨[], by simp [call, hg, hls]⟩
      | ok ents =>
        obtain ⟨t, ht⟩ := dirMatchLoop_append (sepOf ov sep) g path
          (fun a p => ih none a p) ents acc
        exact ⟨t, by simp [call, hg, hls]; exact ht⟩
  | entryMatch flags sep g sfx =>
    intro ov acc path
    by_cases hg : path ≠ "" ∧ fs.pathExists (path ++ "/.") = false
    · exact ⟨[], by simp [call, hg]⟩
    · cases hls : fs.listdir (if path = "" then "." else path) with
      | error u => exact ⟨[], by simp [call, hg, hls]⟩
      | ok ents =>
        exact ⟨ents.flatMap (fun f => sfx.filterMap (fun suf =>
          if fnmatch (f ++ suf) g = true
          then some (path_join (sepOf ov sep) path (f ++ suf)) else none)),
          by simp [call, hg, hls]⟩
  | directoriesOnly flags sep =>
    intro ov acc path
    by_cases hg : path ≠ "" ∧ fs.pathExists (path ++ "/.") = true
    · exact ⟨[path ++ "/"], by simp [call, hg]⟩
    · exact ⟨[], by simp [call, hg]⟩

end AppendOnly

/-! ## The recursive-descent worklist pushes each directory at most once (C9)

The worklist loop has no visited set; uniqueness of pushes relies on the
directory structure being a forest: sibling listings are duplicate-free,
distinct directories have disjoint child sets, and the seed directories are
nobody's children.  Under those hypotheses the trace of pushed paths is
duplicate-free, and with fuel at least the number of directories the loop
never exhausts its fuel. -/

section Worklist

variable {fs : FS} {nc : List String → String → GRes}

/-- The child filter an iteration applies to the listing of `p`, as a
`filterMap`. -/
def pushFilter (fs : FS) (flags : Nat) (sep : Option String) (p : String)
    (ents : List String) : List String :=
  ents.filterMap (fun ent =>
    if fs.isdir (path_join sep p ent) = true ∧
        (allowDots flags = true ∨ startsWithDot ent = false) then
      some (path_join sep p ent)
    else none)

theorem childDirs_listdir {flags : Nat} {sep : Option String} {p : String}
    {ents : List String} (h : fs.listdir p = .ok ents) :
    childDirs fs flags sep p = pushFilter fs flags sep p ents := by
  simp [childDirs, pushFilter, h]

/-- The pushes of one iteration form a sublist of the filtered listing: an
erroring child walk truncates the batch but never adds or repeats a push. -/
theorem entLoopTrace_pushes (flags : Nat) (sep : Option String) (p : String) :
    ∀ (ents acc : List String),
      List.Sublist (entLoopTrace fs nc flags sep p ents acc).1 (pushFilter fs flags sep p ents) := by
  intro ents
  induction ents with
  | nil => intro acc; simp [entLoopTrace, pushFilter]
  | cons ent rest ih =>
    intro acc
    by_cases hc : fs.isdir (path_join sep p ent) = true ∧
        (allowDots flags = true ∨ startsWithDot ent = false)
    · cases hnc : nc acc (path_join sep p ent) with
      | mk m oe =>
        cases oe with
        | some e =>
          have : pushFilter fs flags sep p (ent :: rest) =
              path_join sep p ent :: pushFilter fs flags sep p rest := by
            simp [pushFilter, hc]
          rw [this]
          simp only [entLoopTrace, hc, hnc]
          exact (List.nil_sublist _).cons₂ _
        | none =>
          have hpf : pushFilter fs flags sep p (ent :: rest) =
              path_join sep p ent :: pushFilter fs flags sep p rest := by
            simp [pushFilter, hc]
          rw [hpf]
          cases hrec : entLoopTrace fs nc flags sep p rest m with
          | mk ps rest' =>
            have h1 : List.Sublist ps (pushFilter fs flags sep p rest) := by
              have := ih m
              rw [hrec] at this
              exact this
            simp only [entLoopTrace, hc, hnc, hrec]
            exact h1.cons₂ _
    · have hpf : pushFilter fs flags sep p (ent :: rest) =
          pushFilter fs flags sep p rest := by
        simp [pushFilter, hc]
      rw [hpf]
      simp only [entLoopTrace, hc]
      exact ih acc

/-- An exception escaping the entry loop originates in a child walk. -/
theorem entLoopTrace_err (flags : Nat) (sep : Option String) (p : String) :
    ∀ (ents acc : List String) (e : Err),
      (entLoopTrace fs nc flags sep p ents acc).2.2 = some e →
      ∃ a q, (nc a q).2 = some e := by
  intro ents
  induction ents with
  | nil => intro acc e h; simp [entLoopTrace] at h
  | cons ent rest ih =>
    intro acc e h
    by_cases hc : fs.isdir (path_join sep p ent) = true ∧
        (allowDots flags = true ∨ startsWithDot ent = false)
    · cases hnc : nc acc (path_join sep p ent) with
      | mk m oe =>
        cases oe with
        | some e' =>
          refine ⟨acc, path_join sep p ent, ?_⟩
          simp only [entLoopTrace, hc, hnc] at h
          rw [hnc]
          simpa using h
        | none =>
          cases hrec : entLoopTrace fs nc flags sep p rest m with
          | mk ps rest' =>
            simp only [entLoopTrace, hc, hnc, hrec] at h
            have := ih m e
            rw [hrec] at this
            exact this h
    · simp only [entLoopTrace, hc] at h
      exact ih acc e h

/-- A walk of a recursion-free chain never reports fuel exhaustion (it never
runs a worklist loop). -/
theorem dirMatchLoop_no_fuelOut (sep : Option String) (g path : String)
    (hnc : ∀ a q, (nc a q).2 ≠ some Err.fuelOut) :
    ∀ (ents acc : List String),
      (dirMatchLoop fs nc sep g path ents acc).2 ≠ some Err.fuelOut := by
  intro ents
  induction ents with
  | nil => intro acc; simp [dirMatchLoop]
  | cons ent rest ih =>
    intro acc
    by_cases hm : fnmatch ent g = true
    · by_cases hd : fs.isdir (path_join sep path ent) = true
      · cases hnc2 : nc acc (path_join sep path ent) with
        | mk m oe =>
          cases oe with
          | some e =>
            simp only [dirMatchLoop, hm, hd, hnc2]
            have := hnc acc (path_join sep path ent)
            rw [hnc2] at this
            simpa using this
          | none =>
            simp only [dirMatchLoop, hm, hd, hnc2]
            exact ih m
      · simp only [dirMatchLoop, hm, hd]
        exact ih acc
    · simp only [dirMatchLoop, hm]
      exact ih acc

theorem call_recursionFree_no_fuelOut (fs : FS) (fuel : Nat) :
    ∀ (n : Node), recursionFree n = true →
      ∀ (ov : Option (Option String)) (acc : List String) (path : String),
        (call fs fuel n ov acc path).2 ≠ some Err.fuelOut := by
  intro n
  induction n with
  | constantDirectory next flags sep dir ih =>
    intro h ov acc path
    exact ih (by simpa [recursionFree] using h) none acc _
  | constantEntry flags sep name sfx =>
    intro h ov acc path
    simp [call]
  | rootDirectory next flags sep ih =>
    intro h ov acc path
    exact ih (by simpa [recursionFree] using h) none acc "/"
  | recursiveDirectories next flags sep ih =>
    intro h
    simp [recursionFree] at h
  | startRecursiveDirectories next flags sep ih =>
    intro h
    simp [recursionFree] at h
  | directoryMatch next flags sep g ih =>
    intro h ov acc path
    have hnext := ih (by simpa [recursionFree] using h)
    by_cases hg : path ≠ "" ∧ fs.pathExists path = false
    · simp [call, hg]
    · cases hls : fs.listdir (if path = "" then "." else path) with
      | error u => simp [call, hg, hls]
      | ok ents =>
        simp only [call, if_neg hg, hls]
        exact dirMatchLoop_no_fuelOut (sepOf ov sep) g path
          (fun a q => hnext none a q) ents acc
  | entryMatch flags sep g sfx =>
    intro h ov acc path
    by_cases hg : path ≠ "" ∧ fs.pathExists (path ++ "/.") = false
    · simp [call, hg]
    · cases hls : fs.listdir (if path = "" then "." else path) with
      | error u => simp [call, hg, hls]
      | ok ents => simp [call, hg, hls]
  | directoriesOnly flags sep =>
    intro h ov acc path
    by_cases hg : path ≠ "" ∧ fs.pathExists (path ++ "/.") = true
    · simp [call, hg]
    · simp [call, hg]

/-- Invariant proof for the worklist loop.  State: `stack` (head = top),
`tr` = every path pushed so far.  `roots` are the seeds; `D` is a
duplicate-free universe of directories closed under children, in which
sibling listings are duplicate-free, child sets of distinct directories are
disjoint, and no seed is anybody's child.  Then the final push trace is
duplicate-free, and when the fuel covers `D` the loop never reports
`fuelOut`. -/
theorem stackLoopTrace_inv (fs : FS) (nc : List String → String → GRes)
    (flags : Nat) (sep : Option String) (D roots : List String)
    (hclosed : ∀ p ∈ D, ∀ c ∈ childDirs fs flags sep p, c ∈ D)
    (hCnd : ∀ p ∈ D, (childDirs fs flags sep p).Nodup)
    (huniq : ∀ p₁ ∈ D, ∀ p₂ ∈ D, ∀ c ∈ childDirs fs flags sep p₁,
        c ∈ childDirs fs flags sep p₂ → p₁ = p₂)
    (hroot : ∀ p ∈ D, ∀ r ∈ roots, r ∉ childDirs fs flags sep p)
    (hnc : ∀ a q, (nc a q).2 ≠ some Err.fuelOut) :
    ∀ (fuel : Nat) (stack acc tr : List String),
      tr.Nodup → stack.Nodup → (∀ x ∈ stack, x ∈ tr) → (∀ x ∈ tr, x ∈ D) →
      (∀ c ∈ tr, c ∈ roots ∨
        ∃ p ∈ D, c ∈ childDirs fs flags sep p ∧ p ∈ tr ∧ p ∉ stack) →
      ((stackLoopTrace fs nc flags sep fuel stack acc tr).2.2.Nodup ∧
       (D.length + stack.length ≤ fuel + tr.length →
         (stackLoopTrace fs nc flags sep fuel stack acc tr).2.1 ≠ some Err.fuelOut)) := by
  intro fuel
  induction fuel with
  | zero =>
    intro stack acc tr htrNd hstNd hstTr htrD hI5
    cases stack with
    | nil => exact ⟨htrNd, fun _ => by simp [stackLoopTrace]⟩
    | cons p rest =>
      refine ⟨htrNd, fun hle => absurd hle ?_⟩
      have htr_le : tr.length ≤ D.length :=
        (List.subperm_of_subset htrNd htrD).length_le
      simp only [List.length_cons]
      omega
  | succ f ih =>
    intro stack acc tr htrNd hstNd hstTr htrD hI5
    cases stack with
    | nil => exact ⟨htrNd, fun _ => by simp [stackLoopTrace]⟩
    | cons p rest =>
      have hpTr : p ∈ tr := hstTr p (by simp)
      have hpD : p ∈ D := htrD p hpTr
      have hrestNd : rest.Nodup := hstNd.of_cons
      have hpNotRest : p ∉ rest := (List.nodup_cons.mp hstNd).1
      cases hls : fs.listdir p with
      | error u =>
        have step := ih rest acc tr htrNd hrestNd
          (fun x hx => hstTr x (by simp [hx])) htrD
          (fun c hc => by
            rcases hI5 c hc with h | ⟨q, hqD, hcq, hqtr, hqns⟩
            · exact Or.inl h
            · exact Or.inr ⟨q, hqD, hcq, hqtr, fun hq => hqns (by simp [hq])⟩)
        refine ⟨?_, ?_⟩
        · simpa [stackLoopTrace, hls] using step.1
        · intro hle
          have := step.2 (by simp at hle ⊢; omega)
          simpa [stackLoopTrace, hls] using this
      | ok ents =>
        -- the pushes of this iteration
        cases hel : entLoopTrace fs nc flags sep p ents acc with
        | mk ps mrest =>
          cases mrest with
          | mk m oe =>
            have hps_sub : List.Sublist ps (childDirs fs flags sep p) := by
              have := @entLoopTrace_pushes fs nc flags sep p ents acc
              rw [hel] at this
              rw [childDirs_listdir hls]
              exact this
            have hpsNd : ps.Nodup := (hCnd p hpD).sublist hps_sub
            have hpsC : ∀ c ∈ ps, c ∈ childDirs fs flags sep p :=
              fun c hc => hps_sub.subset hc
            -- a fresh push can never already be in the trace
            have hdisj : ∀ c ∈ ps, c ∉ tr := by
              intro c hc hctr
              rcases hI5 c hctr with h | ⟨q, hqD, hcq, hqtr, hqns⟩
              · exact hroot p hpD c h (hpsC c hc)
              · have : q = p := huniq q hqD p hpD c hcq (hpsC c hc)
                subst this
                exact hqns (by simp)
            -- invariants of the post-iteration state
            have htrNd' : (tr ++ ps).Nodup :=
              List.nodup_append.mpr ⟨htrNd, hpsNd, fun a ha hps => hdisj a hps ha⟩
            have hstNd' : (ps.reverse ++ rest).Nodup := by
              refine List.nodup_append.mpr ⟨List.nodup_reverse.mpr hpsNd, hrestNd, ?_⟩
              intro a ha har
              exact hdisj a (List.mem_reverse.mp ha) (hstTr a (by simp [har]))
            have hstTr' : ∀ x ∈ ps.reverse ++ rest, x ∈ tr ++ ps := by
              intro x hx
              rcases List.mem_append.mp hx with hx | hx
              · exact List.mem_append.mpr (Or.inr (List.mem_reverse.mp hx))
              · exact List.mem_append.mpr (Or.inl (hstTr x (by simp [hx])))
            have htrD' : ∀ x ∈ tr ++ ps, x ∈ D := by
              intro x hx
              rcases List.mem_append.mp hx with hx | hx
              · exact htrD x hx
              · exact hclosed p hpD x (hpsC x hx)
            have hI5' : ∀ c ∈ tr ++ ps, c ∈ roots ∨
                ∃ q ∈ D, c ∈ childDirs fs flags sep q ∧ q ∈ tr ++ ps ∧
                  q ∉ ps.reverse ++ rest := by
              intro c hc
              rcases List.mem_append.mp hc with hc | hc
              · rcases hI5 c hc with h | ⟨q, hqD, hcq, hqtr, hqns⟩
                · exact Or.inl h
                · refine Or.inr ⟨q, hqD, hcq, List.mem_append.mpr (Or.inl hqtr), ?_⟩
                  intro hq
                  rcases List.mem_append.mp hq with hq | hq
                  · exact hdisj q (List.mem_reverse.mp hq) hqtr
                  · exact hqns (by simp [hq])
              · refine Or.inr ⟨p, hpD, hpsC c hc, List.mem_append.mpr (Or.inl hpTr), ?_⟩
                intro hq
                rcases List.mem_append.mp hq with hq | hq
                · exact hdisj p (List.mem_reverse.mp hq) hpTr
                · exact hpNotRest hq
            have step := ih (ps.reverse ++ rest) m (tr ++ ps)
              htrNd' hstNd' hstTr' htrD' hI5'
            have harith : D.length + (p :: rest).length ≤ (f + 1) + tr.length →
                D.length + (ps.reverse ++ rest).length ≤ f + (tr ++ ps).length := by
              simp only [List.length_cons, List.length_append, List.length_reverse]
              omega
            cases oe with
            | some e =>
              by_cases hos : e = Err.osError
              · subst hos
                refine ⟨?_, ?_⟩
                · simpa [stackLoopTrace, hls, hel] using step.1
                · intro hle
                  have := step.2 (harith hle)
                  simpa [stackLoopTrace, hls, hel] using this
              · refine ⟨?_, ?_⟩
                · simpa [stackLoopTrace, hls, hel, hos] using htrNd'
                · intro hle
                  have herr : ∃ a q, (nc a q).2 = some e := by
                    have := @entLoopTrace_err fs nc flags sep p ents acc e
                    rw [hel] at this
                    exact this rfl
                  obtain ⟨a, q, haq⟩ := herr
                  have : e ≠ Err.fuelOut := fun hfe => hnc a q (hfe ▸ haq)
                  simp only [stackLoopTrace, hls, hel, if_neg hos]
                  exact fun hfe => this (Option.some.inj hfe)
            | none =>
              refine ⟨?_, ?_⟩
              · simpa [stackLoopTrace, hls, hel] using step.1
              · intro hle
                have := step.2 (harith hle)
                simpa [stackLoopTrace, hls, hel] using this

end Worklist

/-- A `RecursiveDirectories` walk is exactly the worklist loop seeded (both
in stack and in push trace) with the start path, run after the switched call
on the seed. -/
theorem call_recursiveDirectories_eq (fs : FS) (fuel flags : Nat)
    (sep : Option String) (next : Node) (ov : Option (Option String))
    (acc : List String) (start : String) (m : List String)
    (hex : fs.pathExists start = true)
    (hsw : call fs fuel next (some (sepOf ov sep)) acc start = (m, none)) :
    call fs fuel (.recursiveDirectories next flags sep) ov acc start =
      ((stackLoopTrace fs (fun a q => call fs fuel next none a q) flags
          (sepOf ov sep) fuel [start] m [start]).1,
       (stackLoopTrace fs (fun a q => call fs fuel next none a q) flags
          (sepOf ov sep) fuel [start] m [start]).2.1) := by
  simp [call, hex, hsw]

/-- Claim C9.  A walk of a `RecursiveDirectories` or
`StartRecursiveDirectories` node runs `call_with_stack`, whose worklist is
seeded with the start path (respectively with the qualifying entries of the
working directory) and whose every push is also recorded in the walk's trace.
Over a finite forest of directories — `D` duplicate-free and closed under
children, sibling listings duplicate-free, child sets of distinct directories
disjoint, no seed a child of anything — every directory is pushed at most
once (the trace is duplicate-free), and with fuel at least `|D|` and a
recursion-free continuation the traversal terminates without exhausting its
fuel. -/
theorem recursive_worklist_pushes_unique (fs : FS) (flags fuel : Nat)
    (sep : Option String) (next : Node) (D roots acc : List String)
    (hrf : recursionFree next = true)
    (hrnd : roots.Nodup)
    (hrD : ∀ r ∈ roots, r ∈ D)
    (hclosed : ∀ p ∈ D, ∀ c ∈ childDirs fs flags sep p, c ∈ D)
    (hCnd : ∀ p ∈ D, (childDirs fs flags sep p).Nodup)
    (huniq : ∀ p₁ ∈ D, ∀ p₂ ∈ D, ∀ c ∈ childDirs fs flags sep p₁,
        c ∈ childDirs fs flags sep p₂ → p₁ = p₂)
    (hroot : ∀ p ∈ D, ∀ r ∈ roots, r ∉ childDirs fs flags sep p)
    (hfuel : D.length ≤ fuel) :
    ((stackLoopTrace fs (fun a q => call fs fuel next none a q) flags sep fuel
        roots.reverse acc roots).2.2.Nodup ∧
     (stackLoopTrace fs (fun a q => call fs fuel next none a q) flags sep fuel
        roots.reverse acc roots).2.1 ≠ some Err.fuelOut) := by
  have hnc : ∀ (a : List String) (q : String),
      ((fun a q => call fs fuel next none a q) a q).2 ≠ some Err.fuelOut :=
    fun a q => call_recursionFree_no_fuelOut fs fuel next hrf none a q
  have main := stackLoopTrace_inv fs (fun a q => call fs fuel next none a q)
    flags sep D roots hclosed hCnd huniq hroot hnc fuel roots.reverse acc roots
    hrnd (List.nodup_reverse.mpr hrnd)
    (fun x hx => List.mem_reverse.mp hx)
    hrD
    (fun c hc => Or.inl hc)
  exact ⟨main.1, main.2 (by simp; omega)⟩

/-- Witness for `recursive_worklist_pushes_unique`: the tree `fsTree`
(root `r` with subdirectories `a`, `b` and hidden `.h`), universe
`[r, r/a, r/b]`, seed `r`, continuation `DirectoriesOnly`, fuel 3. -/
theorem recursive_worklist_pushes_unique_witness :
    recursionFree (Node.directoriesOnly 0 none) = true ∧
    (((stackLoopTrace fsTree
        (fun a q => call fsTree 3 (Node.directoriesOnly 0 none) none a q) 0 none 3
        (["r"] : List String).reverse [] ["r"]).2.2.Nodup ∧
      (stackLoopTrace fsTree
        (fun a q => call fsTree 3 (Node.directoriesOnly 0 none) none a q) 0 none 3
        (["r"] : List String).reverse [] ["r"]).2.1 ≠ some Err.fuelOut)) :=
  ⟨rfl, recursive_worklist_pushes_unique fsTree 0 3 none (.directoriesOnly 0 none)
    ["r", "r/a", "r/b"] ["r"] [] rfl (by decide) (by decide) (by decide)
    (by decide) (by decide) (by decide) (by decide)⟩

end GlobSpec
